import Mathlib

/-!
Verification of the line-matching and output-formatting engine of a small
command-line substring-search utility (a `grep`-style tool written in Rust,
`src/main.rs`).  Text is modelled as `List Char`; the Rust standard-library
substring primitives (`str::contains`, `str::find`, `str::to_lowercase`,
`str::starts_with`) are embedded as executable Lean functions, and the
program's own functions (`parse_args`, `run`, `search_one_file`,
`highlight_line`) are translated on top of them.
-/

namespace Grep

/-- Embedding of Rust `pat.is_prefix_of`-style matching (`str::starts_with`):
`begWith pat s` is true iff `s` starts with `pat`. -/
def begWith : List Char → List Char → Bool
  | [], _ => true
  | _ :: _, [] => false
  | a :: as, b :: bs => a == b && begWith as bs

/-- Embedding of Rust `s.find(pat)` for literal patterns: index of the first
occurrence of `pat` in `s`, scanning left to right (`some 0` for an empty
pattern, as in Rust). -/
def strFind (pat : List Char) : List Char → Option Nat
  | [] => if begWith pat [] then some 0 else none
  | c :: t => if begWith pat (c :: t) then some 0 else (strFind pat t).map (· + 1)

/-- Embedding of Rust `s.contains(pat)` for literal patterns. -/
def strContains (s pat : List Char) : Bool := (strFind pat s).isSome

/-- Per-character simple lowercase fold (`Char.toLower`), the character-level
abstraction of Rust `s.to_lowercase()`.  It agrees with Rust on ASCII but is
one-to-one and length-preserving, while the full Unicode mapping of
`str::to_lowercase` can change length (`'K'` lowers to `"k"`, `'İ'`
lowers to `"i"` plus `'̇'`); `rustLower`/`strBytes` below give the
byte-level faithful model used where that difference matters (the
case-insensitive highlight path, which slices the original line at indices
found in the lowered line). -/
def lowerStr (s : List Char) : List Char := s.map Char.toLower

/-- The `Config` struct of the program (`struct Config` in `main.rs`). -/
structure Config where
  pattern : List Char
  paths : List (List Char)
  case_insensitive : Bool
  line_numbers : Bool
  invert : Bool
  recursive : Bool
  print_filenames : Bool
  color : Bool
  help : Bool

/-- Rust `Config::default()`: empty pattern, no paths, all flags false. -/
def configDefault : Config :=
  { pattern := [], paths := [], case_insensitive := false, line_numbers := false
    invert := false, recursive := false, print_filenames := false, color := false
    help := false }

/-- The match decision computed per line in `search_one_file`: lowercase both
sides when `-i` is set, otherwise plain substring containment. -/
def is_match (cfg : Config) (line : List Char) : Bool :=
  if cfg.case_insensitive then strContains (lowerStr line) (lowerStr cfg.pattern)
  else strContains line cfg.pattern

/-- The `-v` emission decision in `search_one_file`:
`if cfg.invert { !is_match } else { is_match }`. -/
def should_print (cfg : Config) (m : Bool) : Bool :=
  if cfg.invert then !m else m

/-- One segment of a rendered line: plain text copied verbatim, or a
highlighted (red-wrapped) occurrence of the pattern. -/
inductive Seg where
  | plain (s : List Char)
  | hl (s : List Char)
deriving DecidableEq

/-- The text carried by a segment (emphasis markers stripped). -/
def segText : Seg → List Char
  | Seg.plain s => s
  | Seg.hl s => s

/-- Concatenation of the segment texts: the rendered output with the emphasis
markers stripped. -/
def stripSegs : List Seg → List Char
  | [] => []
  | g :: gs => segText g ++ stripSegs gs

/-- ANSI escape opening red emphasis, as produced by `.red()`. -/
def redStart : List Char := [Char.ofNat 27, '[', '3', '1', 'm']

/-- ANSI escape closing emphasis, as produced by `.red()`. -/
def redEnd : List Char := [Char.ofNat 27, '[', '0', 'm']

/-- Rendering of one segment to output text: highlighted segments are wrapped
in the emphasis markers. -/
def renderSeg : Seg → List Char
  | Seg.plain s => s
  | Seg.hl s => redStart ++ s ++ redEnd

/-- Rendering of a whole segment list to output text. -/
def renderSegs : List Seg → List Char
  | [] => []
  | g :: gs => renderSeg g ++ renderSegs gs

/-- The case-sensitive scanning loop of `highlight_line` (`while let Some(pos)
 = line[i..].find(pattern)`), written with structural fuel: each iteration
consumes at least one character of `s`, so `fuel = s.length` suffices.  When
the fuel runs out or no further occurrence exists, the remainder is emitted
as plain text, exactly as the loop's final `out.push_str(&line[i..])`. -/
def hlGo (fuel : Nat) (s pat : List Char) : List Seg :=
  match fuel with
  | 0 => [Seg.plain s]
  | fuel + 1 =>
    match strFind pat s with
    | none => [Seg.plain s]
    | some pos =>
      if pat.length = 0 then [Seg.plain s]
      else
        Seg.plain (s.take pos) :: Seg.hl ((s.drop pos).take pat.length) ::
          hlGo fuel (s.drop (pos + pat.length)) pat

/-- The case-insensitive scanning loop of `highlight_line` at character level:
occurrences are located in the lowercased line `low` but the emitted text is
sliced from the original line `orig` at the same indices.  `List.take` and
`List.drop` clamp, so this models only the executions in which the fold keeps
positions inside `orig` aligned; Rust's `&line[start..end]` instead panics on
an out-of-range or non-boundary byte index, which `hlGoCIBytes` below models
faithfully. -/
def hlGoCI (fuel : Nat) (orig low pat : List Char) : List Seg :=
  match fuel with
  | 0 => [Seg.plain orig]
  | fuel + 1 =>
    match strFind pat low with
    | none => [Seg.plain orig]
    | some pos =>
      if pat.length = 0 then [Seg.plain orig]
      else
        Seg.plain (orig.take pos) :: Seg.hl ((orig.drop pos).take pat.length) ::
          hlGoCI fuel (orig.drop (pos + pat.length)) (low.drop (pos + pat.length)) pat

/-- Function `highlight_line` from `main.rs`: empty pattern returns the line unchanged;
otherwise scan case-sensitively, or on the lowercased line and pattern when
`case_insensitive` is set. -/
def highlight_line (line pat : List Char) (ci : Bool) : List Seg :=
  if pat.isEmpty then [Seg.plain line]
  else if !ci then hlGo line.length line pat
  else hlGoCI (lowerStr line).length line (lowerStr line) (lowerStr pat)

/-- The half-open spans `[start, end)` located by the `highlight_line` loop,
reified: each found occurrence contributes `(i + pos, i + pos + pat.length)`
and scanning resumes at the span's end. -/
def spansGo (fuel : Nat) (s pat : List Char) (i : Nat) : List (Nat × Nat) :=
  match fuel with
  | 0 => []
  | fuel + 1 =>
    match strFind pat s with
    | none => []
    | some pos =>
      if pat.length = 0 then []
      else
        (i + pos, i + pos + pat.length) ::
          spansGo fuel (s.drop (pos + pat.length)) pat (i + pos + pat.length)

/-- The highlight spans of a line: none for an empty pattern, otherwise the
spans located by the scanning loop (on the lowercased texts when
`case_insensitive` is set). -/
def highlight_spans (line pat : List Char) (ci : Bool) : List (Nat × Nat) :=
  if pat.isEmpty then []
  else if !ci then spansGo line.length line pat 0
  else spansGo (lowerStr line).length (lowerStr line) (lowerStr pat) 0

/-- The `display_line` computation in `search_one_file`: highlight only when
`-c` is set, the line is not being emitted by inversion, and it matched. -/
def display_line (cfg : Config) (line : List Char) : List Seg :=
  if cfg.color && !cfg.invert && is_match cfg line then
    highlight_line line cfg.pattern cfg.case_insensitive
  else [Seg.plain line]

/-- UTF-8 encoding of one character: the byte representation over which Rust
strings, `str::find` results and slice indices are defined. -/
def utf8Bytes (c : Char) : List Nat :=
  let n := c.toNat
  if n < 0x80 then [n]
  else if n < 0x800 then [0xC0 + n / 0x40, 0x80 + n % 0x40]
  else if n < 0x10000 then
    [0xE0 + n / 0x1000, 0x80 + n / 0x40 % 0x40, 0x80 + n % 0x40]
  else
    [0xF0 + n / 0x40000, 0x80 + n / 0x1000 % 0x40, 0x80 + n / 0x40 % 0x40,
      0x80 + n % 0x40]

/-- UTF-8 byte sequence of a string. -/
def strBytes (s : List Char) : List Nat := (s.map utf8Bytes).flatten

/-- Byte-level faithful model of the lowercase mapping of Rust
`str::to_lowercase` (a standard-library collaborator, not code of this
repository): one character can lower to several.  It is embedded exactly on
the characters this development evaluates: ASCII, where it coincides with the
simple per-character fold, plus the Unicode entries U+212A KELVIN SIGN →
`"k"` and U+0130 LATIN CAPITAL LETTER I WITH DOT ABOVE → `"i"` followed by
U+0307 COMBINING DOT ABOVE — the length-changing mappings. -/
def rustLowerChar (c : Char) : List Char :=
  if c = '\u212A' then ['k']
  else if c = '\u0130' then ['i', '\u0307']
  else [c.toLower]

/-- Rust `s.to_lowercase()` at string level, with per-character expansion. -/
def rustLower (s : List Char) : List Char := (s.map rustLowerChar).flatten

/-- Byte-level `starts_with`. -/
def begWithB : List Nat → List Nat → Bool
  | [], _ => true
  | _ :: _, [] => false
  | a :: as, b :: bs => a == b && begWithB as bs

/-- Byte-level `s.find(pat)`: first byte index of an occurrence. -/
def strFindB (pat : List Nat) : List Nat → Option Nat
  | [] => if begWithB pat [] then some 0 else none
  | c :: t => if begWithB pat (c :: t) then some 0 else (strFindB pat t).map (· + 1)

/-- Byte-level `s.contains(pat)`. -/
def strContainsB (s pat : List Nat) : Bool := (strFindB pat s).isSome

/-- Whether byte index `i` is a valid char boundary of the UTF-8 byte string
`s`: the end of the string, or a byte that is not a continuation byte. -/
def isBoundary (s : List Nat) (i : Nat) : Bool :=
  if i = s.length then true
  else
    match s.drop i with
    | [] => false
    | b :: _ => decide (b < 0x80 ∨ 0xC0 ≤ b)

/-- Rust string slicing `&s[i..j]`: defined only when `i ≤ j` and both ends
are char boundaries in range; otherwise the program panics, modelled as
`none`. -/
def sliceB (s : List Nat) (i j : Nat) : Option (List Nat) :=
  if i ≤ j ∧ isBoundary s i = true ∧ isBoundary s j = true then
    some ((s.take j).drop i)
  else none

/-- One segment of a byte-level rendered line. -/
inductive SegB where
  | plain (s : List Nat)
  | hl (s : List Nat)
deriving DecidableEq

/-- The case-insensitive scanning loop of `highlight_line` at byte level,
exactly as the source: occurrences of `ppB` are found in the lowered line
`llB`, but the original line `lineB` is sliced at those byte indices with
width `ppB.length`; any panicking slice aborts the whole computation with
`none`. -/
def hlGoCIBytes (fuel : Nat) (lineB llB ppB : List Nat) (i : Nat) :
    Option (List SegB) :=
  match fuel with
  | 0 => (sliceB lineB i lineB.length).map (fun r => [SegB.plain r])
  | fuel + 1 =>
    match strFindB ppB (llB.drop i) with
    | none => (sliceB lineB i lineB.length).map (fun r => [SegB.plain r])
    | some pos =>
      if ppB.length = 0 then
        (sliceB lineB i lineB.length).map (fun r => [SegB.plain r])
      else
        match sliceB lineB i (i + pos), sliceB lineB (i + pos) (i + pos + ppB.length) with
        | some s1, some s2 =>
          (hlGoCIBytes fuel lineB llB ppB (i + pos + ppB.length)).map
            (fun rest => SegB.plain s1 :: SegB.hl s2 :: rest)
        | _, _ => none

/-- The case-insensitive branch of `highlight_line` at byte level: lower the
line and the pattern with the real (length-changing) fold, then run the
scanning loop; `none` models a slicing panic. -/
def highlight_line_ci_bytes (line pat : List Char) : Option (List SegB) :=
  if pat.isEmpty then some [SegB.plain (strBytes line)]
  else
    hlGoCIBytes ((strBytes (rustLower line)).length + 1) (strBytes line)
      (strBytes (rustLower line)) (strBytes (rustLower pat)) 0

/-- Byte-level spans located by the case-insensitive scanning loop: scanning
`s` (a suffix of the lowered line) for the lowered pattern `pp`, offsets
accumulated in `i`. -/
def spansGoB (fuel : Nat) (s pp : List Nat) (i : Nat) : List (Nat × Nat) :=
  match fuel with
  | 0 => []
  | fuel + 1 =>
    match strFindB pp s with
    | none => []
    | some pos =>
      if pp.length = 0 then []
      else
        (i + pos, i + pos + pp.length) ::
          spansGoB fuel (s.drop (pos + pp.length)) pp (i + pos + pp.length)

/-- The byte ranges the case-insensitive highlight loop uses to slice the
original line: found in the lowered line's coordinates with the lowered
pattern's width. -/
def highlight_spans_ci_bytes (line pat : List Char) : List (Nat × Nat) :=
  if pat.isEmpty then []
  else
    spansGoB ((strBytes (rustLower line)).length + 1) (strBytes (rustLower line))
      (strBytes (rustLower pat)) 0

/-- The separator `": "` used between the output components. -/
def colonSp : List Char := [':', ' ']

/-- Decimal rendering of a natural number, as `println!` displays it. -/
def natChars (n : Nat) : List Char := (Nat.repr n).data

/-- The output composition at the end of the `search_one_file` loop: the same
if/else-if chain over `print_filenames` and `line_numbers`, with the 0-based
index `idx` displayed as `idx + 1`. -/
def compose_output (cfg : Config) (pathStr : List Char) (idx : Nat)
    (d : List Char) : List Char :=
  if cfg.print_filenames && cfg.line_numbers then
    pathStr ++ colonSp ++ natChars (idx + 1) ++ colonSp ++ d
  else if cfg.print_filenames then pathStr ++ colonSp ++ d
  else if cfg.line_numbers then natChars (idx + 1) ++ colonSp ++ d
  else d

/-- One iteration of the `search_one_file` loop on a successfully read line:
`none` when the line is skipped (`continue`), otherwise the composed output
line. -/
def emittedLine (cfg : Config) (pathStr : List Char) (idx : Nat)
    (line : List Char) : Option (List Char) :=
  if should_print cfg (is_match cfg line) then
    some (compose_output cfg pathStr idx (renderSegs (display_line cfg line)))
  else none

/-- The whole `search_one_file` loop over the lines of one (error-free) file,
`idx` being the 0-based index of the first line of `lines`: the output lines
printed for that file, in reading order. -/
def searchLines (cfg : Config) (pathStr : List Char) (idx : Nat) :
    List (List Char) → List (List Char)
  | [] => []
  | l :: ls =>
    match emittedLine cfg pathStr idx l with
    | some o => o :: searchLines cfg pathStr (idx + 1) ls
    | none => searchLines cfg pathStr (idx + 1) ls

/-- One input file as seen by `run` after collection: its path string and its
lines. -/
structure FileData where
  path : List Char
  lines : List (List Char)

/-- Lexicographic comparison of path strings by code point, embedding the
`a.to_string_lossy().cmp(&b.to_string_lossy())` sort key of `run` (UTF-8 byte
order coincides with code-point order). -/
def lexLe : List Char → List Char → Bool
  | [], _ => true
  | _ :: _, [] => false
  | a :: as, b :: bs =>
    if a.toNat < b.toNat then true
    else if b.toNat < a.toNat then false
    else lexLe as bs

/-- The sort order used by `run` on collected files. -/
def pathLe (a b : FileData) : Bool := lexLe a.path b.path

/-- The error-free part of `run`: sort the collected files by path string and
search them one after the other, concatenating their outputs in order. -/
def run_files (cfg : Config) (files : List FileData) : List (List Char) :=
  ((files.mergeSort pathLe).map (fun f => searchLines cfg f.path 0 f.lines)).flatten

/-- One input file as seen by the fallible pipeline: the result of
`File::open` (an error, or the per-line results of `reader.lines()`, where a
line itself may be a read error). -/
structure FileRes where
  path : List Char
  openRes : Except (List Char) (List (Except (List Char) (List Char)))

/-- The `search_one_file` loop over fallible line reads: `line_res?` aborts
the file with the first read error, lines before it are processed normally. -/
def readSearch (cfg : Config) (pathStr : List Char) (idx : Nat) :
    List (Except (List Char) (List Char)) → Except (List Char) (List (List Char))
  | [] => Except.ok []
  | Except.error e :: _ => Except.error e
  | Except.ok l :: rest =>
    match emittedLine cfg pathStr idx l with
    | some o => (readSearch cfg pathStr (idx + 1) rest).map (fun os => o :: os)
    | none => readSearch cfg pathStr (idx + 1) rest

/-- Function `search_one_file` from `main.rs`: `File::open(path)?` aborts with the open
error, otherwise the lines are read and searched. -/
def search_one_file (cfg : Config) (f : FileRes) :
    Except (List Char) (List (List Char)) :=
  match f.openRes with
  | Except.error e => Except.error e
  | Except.ok lineResults => readSearch cfg f.path 0 lineResults

/-- The file loop of `run`: `search_one_file(&cfg, &f)?` propagates the first
failure, so an error in one file aborts the run before any later file is
examined. -/
def runE (cfg : Config) : List FileRes → Except (List Char) (List (List Char))
  | [] => Except.ok []
  | f :: rest =>
    match search_one_file cfg f with
    | Except.error e => Except.error e
    | Except.ok outs => (runE cfg rest).map (fun os => outs ++ os)

/-- Whether an argument token starts with a dash (`a.starts_with('-')`). -/
def isDashArg : List Char → Bool
  | '-' :: _ => true
  | _ => false

/-- The argument loop of `parse_args`: `-h`/`--help` returns immediately,
recognized flags set their field, other dash tokens are ignored, the first
bare token is the pattern and later bare tokens are paths. -/
def parseLoop (cfg : Config) (havePat : Bool) : List (List Char) → Option Config
  | [] => some cfg
  | arg :: rest =>
    if arg = "-h".data ∨ arg = "--help".data then some { cfg with help := true }
    else if arg = "-i".data then parseLoop { cfg with case_insensitive := true } havePat rest
    else if arg = "-n".data then parseLoop { cfg with line_numbers := true } havePat rest
    else if arg = "-v".data then parseLoop { cfg with invert := true } havePat rest
    else if arg = "-r".data ∨ arg = "-R".data then parseLoop { cfg with recursive := true } havePat rest
    else if arg = "-f".data then parseLoop { cfg with print_filenames := true } havePat rest
    else if arg = "-c".data then parseLoop { cfg with color := true } havePat rest
    else if isDashArg arg then parseLoop cfg havePat rest
    else if havePat then parseLoop { cfg with paths := cfg.paths ++ [arg] } havePat rest
    else parseLoop { cfg with pattern := arg } true rest

/-- Function `parse_args` from `main.rs`: fold the argument tokens after the program
name (`iter.skip(1)`) over the default configuration. -/
def parse_args (args : List (List Char)) : Option Config :=
  parseLoop configDefault false (args.drop 1)

theorem begWith_iff (pat : List Char) :
    ∀ s : List Char, begWith pat s = true ↔ ∃ r, s = pat ++ r := by
  induction pat with
  | nil => intro s; simp [begWith]
  | cons a as ih =>
    intro s
    cases s with
    | nil => simp [begWith]
    | cons b bs =>
      simp only [begWith, Bool.and_eq_true, beq_iff_eq, ih, List.cons_append,
        List.cons.injEq]
      constructor
      · rintro ⟨hab, r, hr⟩; exact ⟨r, hab.symm, hr⟩
      · rintro ⟨r, hba, hr⟩; exact ⟨hba.symm, r, hr⟩

theorem strFind_of_begWith (pat s : List Char) (h : begWith pat s = true) :
    strFind pat s = some 0 := by
  cases s <;> simp [strFind, h]

theorem strFind_le (pat : List Char) :
    ∀ (s : List Char) (pos : Nat), strFind pat s = some pos → pos ≤ s.length := by
  intro s
  induction s with
  | nil =>
    intro pos h
    simp only [strFind] at h
    split at h
    · injection h with h; omega
    · cases h
  | cons c t ih =>
    intro pos h
    simp only [strFind] at h
    split at h
    · injection h with h; omega
    · obtain ⟨p, hp, hpe⟩ := Option.map_eq_some'.mp h
      subst hpe
      simpa using Nat.succ_le_succ (ih p hp)

theorem strFind_drop (pat : List Char) :
    ∀ (s : List Char) (pos : Nat), strFind pat s = some pos →
      ∃ r, s.drop pos = pat ++ r := by
  intro s
  induction s with
  | nil =>
    intro pos h
    simp only [strFind] at h
    split at h
    next hb =>
      injection h with h
      subst h
      obtain ⟨r, hr⟩ := (begWith_iff pat []).mp hb
      exact ⟨r, by simpa using hr⟩
    next => cases h
  | cons c t ih =>
    intro pos h
    simp only [strFind] at h
    split at h
    next hb =>
      injection h with h
      subst h
      obtain ⟨r, hr⟩ := (begWith_iff pat (c :: t)).mp hb
      exact ⟨r, by simpa using hr⟩
    next hb =>
      obtain ⟨p, hp, hpe⟩ := Option.map_eq_some'.mp h
      subst hpe
      simpa using ih p hp

theorem strFind_bound (pat s : List Char) (pos : Nat)
    (h : strFind pat s = some pos) : pos + pat.length ≤ s.length := by
  have h1 := strFind_le pat s pos h
  obtain ⟨r, hr⟩ := strFind_drop pat s pos h
  have h2 : s.length - pos = pat.length + r.length := by
    have := congrArg List.length hr
    simpa using this
  omega

theorem strFind_isSome_append (pat : List Char) :
    ∀ (l r : List Char), (strFind pat (l ++ pat ++ r)).isSome = true := by
  intro l
  induction l with
  | nil =>
    intro r
    have hb : begWith pat (pat ++ r) = true := (begWith_iff pat _).mpr ⟨r, rfl⟩
    simp [strFind_of_begWith pat _ hb]
  | cons c l ih =>
    intro r
    simp only [List.cons_append, strFind]
    split
    · simp
    · simpa using ih r

theorem strContains_iff (s pat : List Char) :
    strContains s pat = true ↔ ∃ l r, s = l ++ pat ++ r := by
  simp only [strContains]
  constructor
  · intro h
    obtain ⟨pos, hpos⟩ := Option.isSome_iff_exists.mp h
    obtain ⟨r, hr⟩ := strFind_drop pat s pos hpos
    refine ⟨s.take pos, r, ?_⟩
    rw [List.append_assoc, ← hr, List.take_append_drop]
  · rintro ⟨l, r, rfl⟩
    exact strFind_isSome_append pat l r

theorem take_middle (s : List Char) (pos n : Nat) :
    s.take pos ++ ((s.drop pos).take n ++ s.drop (pos + n)) = s := by
  have h : s.drop (pos + n) = (s.drop pos).drop n := by
    rw [List.drop_drop, Nat.add_comm]
  rw [h, List.take_append_drop, List.take_append_drop]

theorem stripSegs_hlGo (pat : List Char) :
    ∀ (fuel : Nat) (s : List Char), stripSegs (hlGo fuel s pat) = s := by
  intro fuel
  induction fuel with
  | zero => intro s; simp [hlGo, stripSegs, segText]
  | succ n ih =>
    intro s
    rw [hlGo]
    split
    · simp [stripSegs, segText]
    · split
      · simp [stripSegs, segText]
      · simp only [stripSegs, segText, List.append_nil, ih]
        exact take_middle s _ _

theorem stripSegs_hlGoCI (pat : List Char) :
    ∀ (fuel : Nat) (orig low : List Char),
      stripSegs (hlGoCI fuel orig low pat) = orig := by
  intro fuel
  induction fuel with
  | zero => intro orig low; simp [hlGoCI, stripSegs, segText]
  | succ n ih =>
    intro orig low
    rw [hlGoCI]
    split
    · simp [stripSegs, segText]
    · split
      · simp [stripSegs, segText]
      · simp only [stripSegs, segText, List.append_nil, ih]
        exact take_middle orig _ _

/-- Counterexample to C1 as stated: with line U+212A KELVIN SIGN (3 bytes,
lowering to the 1-byte `"k"`) and pattern `"k"`, the line matches
case-insensitively, but the case-insensitive highlight slices the original
line at byte range `[0, 1)`, which is not a char boundary, so the program
panics: there is no rendered output to reconstruct the line from. -/
theorem highlight_roundtrip_cex :
    strContainsB (strBytes (rustLower ['K'])) (strBytes (rustLower ['k'])) = true ∧
    highlight_line_ci_bytes ['K'] ['k'] = none := by decide

/-- Claim C1 (amended): for every line and non-empty pattern, when
highlighting is applied in the case-sensitive mode, concatenating the
segments of the rendered output with the emphasis markers stripped yields
exactly the original line text.  In the case-insensitive mode the
reconstruction is not guaranteed: occurrences are located in the
lowercase-folded line and the original line is sliced at those byte indices,
which panics when the fold changes a character's byte length. -/
theorem highlight_roundtrip_cs (line pat : List Char) (hp : pat ≠ []) :
    stripSegs (highlight_line line pat false) = line := by
  have he : pat.isEmpty = false := by
    cases pat with
    | nil => cases hp rfl
    | cons a as => rfl
  rw [highlight_line, he]
  simpa using stripSegs_hlGo pat line.length line

/-- Witness for the amended C1 at a concrete line and pattern. -/
theorem highlight_roundtrip_cs_witness :
    stripSegs (highlight_line "abcab".data "ab".data false) = "abcab".data :=
  highlight_roundtrip_cs "abcab".data "ab".data (by decide)

/-- Claim C2: the highlighting transformation is applied exactly when `-c` is
set, the line matched and `-v` is off; in every other case the emitted
display line is the input line verbatim. -/
theorem display_line_gating (cfg : Config) (line : List Char) :
    (cfg.color = true → cfg.invert = false → is_match cfg line = true →
      display_line cfg line = highlight_line line cfg.pattern cfg.case_insensitive) ∧
    (¬(cfg.color = true ∧ cfg.invert = false ∧ is_match cfg line = true) →
      display_line cfg line = [Seg.plain line] ∧
        renderSegs (display_line cfg line) = line) := by
  constructor
  · intro hc hv hm
    simp [display_line, hc, hv, hm]
  · intro hn
    have hcond : (cfg.color && !cfg.invert && is_match cfg line) = false := by
      by_contra hb
      rw [Bool.not_eq_false, Bool.and_eq_true, Bool.and_eq_true] at hb
      exact hn ⟨hb.1.1, by simpa using hb.1.2, hb.2⟩
    refine ⟨?_, ?_⟩ <;> simp [display_line, hcond, renderSegs, renderSeg]

/-- Witness for C2: with `-c` off the display line is the input verbatim. -/
theorem display_line_gating_witness :
    display_line configDefault "abc".data = [Seg.plain "abc".data] ∧
      renderSegs (display_line configDefault "abc".data) = "abc".data :=
  (display_line_gating configDefault "abc".data).2
    (by intro h; exact absurd h.1 (by decide))

/-- Claim C3: with case-insensitivity off, `is_match` holds iff the line
contains the pattern as a contiguous substring; with it on, iff the
lowercase-folded line contains the lowercase-folded pattern. -/
theorem is_match_contains (cfg : Config) (line : List Char) :
    (cfg.case_insensitive = false →
      (is_match cfg line = true ↔ ∃ l r, line = l ++ cfg.pattern ++ r)) ∧
    (cfg.case_insensitive = true →
      (is_match cfg line = true ↔
        ∃ l r, lowerStr line = l ++ lowerStr cfg.pattern ++ r)) := by
  constructor
  · intro h
    simp [is_match, h, strContains_iff]
  · intro h
    simp [is_match, h, strContains_iff]

/-- Witness for C3: the pattern `"b"` is found in `"abc"` case-sensitively. -/
theorem is_match_contains_witness :
    is_match { configDefault with pattern := ['b'] } "abc".data = true :=
  ((is_match_contains { configDefault with pattern := ['b'] } "abc".data).1
    rfl).mpr ⟨['a'], ['c'], by decide⟩

/-- Claim C4: a line is emitted iff the match decision XOR the invert flag
holds. -/
theorem should_print_xor (cfg : Config) (m : Bool) :
    should_print cfg m = (m != cfg.invert) := by
  cases hv : cfg.invert <;> cases m <;> simp [should_print, hv]

/-- Claim C5: the empty pattern matches every line in both case-sensitivity
modes, and highlighting with an empty pattern produces zero spans and leaves
the line unchanged. -/
theorem empty_pattern_matches (cfg : Config) (line : List Char)
    (hp : cfg.pattern = []) :
    is_match cfg line = true ∧
    highlight_line line cfg.pattern cfg.case_insensitive = [Seg.plain line] ∧
    highlight_spans line cfg.pattern cfg.case_insensitive = [] := by
  have h0 : ∀ s : List Char, strFind [] s = some 0 := fun s =>
    strFind_of_begWith [] s rfl
  refine ⟨?_, ?_, ?_⟩
  · cases hci : cfg.case_insensitive <;>
      simp [is_match, hci, hp, strContains, lowerStr, h0]
  · simp [highlight_line, hp]
  · simp [highlight_spans, hp]

theorem spansGo_mem (pat : List Char) :
    ∀ (fuel : Nat) (s : List Char) (i : Nat) (sp : Nat × Nat),
      sp ∈ spansGo fuel s pat i →
      i ≤ sp.1 ∧ sp.2 = sp.1 + pat.length ∧ sp.2 ≤ i + s.length := by
  intro fuel
  induction fuel with
  | zero => intro s i sp h; simp [spansGo] at h
  | succ n ih =>
    intro s i sp h
    rw [spansGo] at h
    split at h
    · simp at h
    · next pos hf =>
      split at h
      · simp at h
      · next hplen =>
        have hb := strFind_bound pat s pos hf
        rcases List.mem_cons.mp h with rfl | hmem
        · dsimp only
          exact ⟨by omega, rfl, by omega⟩
        · obtain ⟨h1, h2, h3⟩ := ih (s.drop (pos + pat.length)) (i + pos + pat.length) sp hmem
          refine ⟨by omega, h2, ?_⟩
          rw [List.length_drop] at h3
          omega

theorem spansGo_pairwise (pat : List Char) :
    ∀ (fuel : Nat) (s : List Char) (i : Nat),
      List.Pairwise (fun x y => x.2 ≤ y.1) (spansGo fuel s pat i) := by
  intro fuel
  induction fuel with
  | zero => intro s i; simp [spansGo]
  | succ n ih =>
    intro s i
    rw [spansGo]
    split
    · simp
    · next pos hf =>
      split
      · simp
      · next hplen =>
        refine List.pairwise_cons.mpr ⟨?_, ih _ _⟩
        intro sp hsp
        have hm := spansGo_mem pat n _ _ sp hsp
        dsimp only
        omega

/-- Witness for C5 at a concrete line (the default configuration has the
empty pattern). -/
theorem empty_pattern_matches_witness :
    is_match configDefault "xy".data = true ∧
    highlight_line "xy".data configDefault.pattern configDefault.case_insensitive
      = [Seg.plain "xy".data] ∧
    highlight_spans "xy".data configDefault.pattern configDefault.case_insensitive
      = [] :=
  empty_pattern_matches configDefault "xy".data rfl

/-- Counterexample to C6 as stated: the case-insensitive spans live in the
coordinates of the lowercase-folded line with the folded pattern's width.
With line and pattern both U+212A KELVIN SIGN (3 bytes), the single span is
`[0, 1)`, whose width 1 is not the pattern's byte length 3; with line U+0130
LATIN CAPITAL LETTER I WITH DOT ABOVE (2 bytes, folding to the 3-byte
`"i"` + U+0307) and pattern `"i"` + U+0307, the span `[0, 3)` ends past the
original line's byte length 2. -/
theorem highlight_spans_cex :
    highlight_spans_ci_bytes ['\u212A'] ['\u212A'] = [(0, 1)] ∧
    (strBytes ['\u212A']).length = 3 ∧
    ¬((1 : Nat) = 0 + (strBytes ['\u212A']).length) ∧
    highlight_spans_ci_bytes ['\u0130'] ['i', '\u0307'] = [(0, 3)] ∧
    (strBytes ['\u0130']).length = 2 ∧
    ¬((3 : Nat) ≤ (strBytes ['\u0130']).length) := by decide

/-- Claim C6 (amended): for every line and non-empty pattern the highlight
spans are produced in left-to-right order with strictly increasing,
non-overlapping ranges, scanning resuming at the end of each found
occurrence; the spans' coordinates are those of the searched text: in the
case-sensitive mode each span has width exactly the pattern's length and lies
within the line, while in the case-insensitive mode the spans lie within the
lowercase-folded line with width the folded pattern's length (and may fall
outside the original line when folding changes lengths); in particular
pattern `"aa"` on line `"aaaa"` yields exactly the spans `[0,2)` and
`[2,4)`. -/
theorem highlight_spans_ordered_amended :
    (∀ (line pat : List Char) (ci : Bool), pat ≠ [] →
      List.Pairwise (fun x y => x.1 < y.1 ∧ x.2 ≤ y.1)
        (highlight_spans line pat ci) ∧
      (ci = false → ∀ sp ∈ highlight_spans line pat ci,
        sp.1 < sp.2 ∧ sp.2 = sp.1 + pat.length ∧ sp.2 ≤ line.length) ∧
      (ci = true → ∀ sp ∈ highlight_spans line pat ci,
        sp.1 < sp.2 ∧ sp.2 = sp.1 + (lowerStr pat).length ∧
          sp.2 ≤ (lowerStr line).length)) ∧
    highlight_spans "aaaa".data "aa".data false = [(0, 2), (2, 4)] := by
  constructor
  · intro line pat ci hp
    have he : pat.isEmpty = false := by
      cases pat with
      | nil => cases hp rfl
      | cons a as => rfl
    have hlen : 0 < pat.length := by
      cases pat with
      | nil => cases hp rfl
      | cons a as => simp
    have hllen : 0 < (lowerStr pat).length := by
      cases pat with
      | nil => cases hp rfl
      | cons a as => simp [lowerStr]
    cases ci with
    | false =>
      have hmem : ∀ sp ∈ highlight_spans line pat false,
          sp.1 < sp.2 ∧ sp.2 = sp.1 + pat.length ∧ sp.2 ≤ line.length := by
        intro sp hsp
        simp only [highlight_spans, he, Bool.false_eq_true, if_false,
          Bool.not_false, if_true] at hsp
        have h := spansGo_mem pat line.length line 0 sp hsp
        exact ⟨by omega, h.2.1, by omega⟩
      have hpw : List.Pairwise (fun x y : Nat × Nat => x.2 ≤ y.1)
          (highlight_spans line pat false) := by
        simp only [highlight_spans, he, Bool.false_eq_true, if_false,
          Bool.not_false, if_true]
        exact spansGo_pairwise pat line.length line 0
      refine ⟨?_, ?_, ?_⟩
      · refine List.Pairwise.imp_of_mem ?_ hpw
        intro a b ha hb hr
        exact ⟨by have := (hmem a ha).1; omega, hr⟩
      · intro h
        exact hmem
      · intro h
        exact Bool.noConfusion h
    | true =>
      have hmem : ∀ sp ∈ highlight_spans line pat true,
          sp.1 < sp.2 ∧ sp.2 = sp.1 + (lowerStr pat).length ∧
            sp.2 ≤ (lowerStr line).length := by
        intro sp hsp
        simp only [highlight_spans, he, Bool.false_eq_true, if_false,
          Bool.not_true, if_true] at hsp
        have h := spansGo_mem (lowerStr pat) (lowerStr line).length (lowerStr line) 0 sp hsp
        exact ⟨by omega, h.2.1, by omega⟩
      have hpw : List.Pairwise (fun x y : Nat × Nat => x.2 ≤ y.1)
          (highlight_spans line pat true) := by
        simp only [highlight_spans, he, Bool.false_eq_true, if_false,
          Bool.not_true, if_true]
        exact spansGo_pairwise (lowerStr pat) (lowerStr line).length (lowerStr line) 0
      refine ⟨?_, ?_, ?_⟩
      · refine List.Pairwise.imp_of_mem ?_ hpw
        intro a b ha hb hr
        exact ⟨by have := (hmem a ha).1; omega, hr⟩
      · intro h
        exact Bool.noConfusion h
      · intro h
        exact hmem
  · decide

/-- Witness for the amended C6 at a concrete line and pattern. -/
theorem highlight_spans_ordered_amended_witness :
    List.Pairwise (fun x y => x.1 < y.1 ∧ x.2 ≤ y.1)
      (highlight_spans "abab".data "ab".data false) ∧
    (∀ sp ∈ highlight_spans "abab".data "ab".data false,
      sp.1 < sp.2 ∧ sp.2 = sp.1 + ("ab".data).length ∧
        sp.2 ≤ ("abab".data).length) := by
  obtain ⟨h1, h2, h3⟩ :=
    highlight_spans_ordered_amended.1 "abab".data "ab".data false (by decide)
  exact ⟨h1, h2 rfl⟩

/-- Claim C7: the composed output for an emitted display line at 0-based index
`idx` is `path: idx+1: line`, `path: line`, `idx+1: line`, or the bare line,
according to the two flags, with the displayed number always 1-based. -/
theorem compose_output_cases (cfg : Config) (pathStr : List Char) (idx : Nat)
    (d : List Char) :
    (cfg.print_filenames = true → cfg.line_numbers = true →
      compose_output cfg pathStr idx d =
        pathStr ++ colonSp ++ natChars (idx + 1) ++ colonSp ++ d) ∧
    (cfg.print_filenames = true → cfg.line_numbers = false →
      compose_output cfg pathStr idx d = pathStr ++ colonSp ++ d) ∧
    (cfg.print_filenames = false → cfg.line_numbers = true →
      compose_output cfg pathStr idx d = natChars (idx + 1) ++ colonSp ++ d) ∧
    (cfg.print_filenames = false → cfg.line_numbers = false →
      compose_output cfg pathStr idx d = d) := by
  refine ⟨?_, ?_, ?_, ?_⟩ <;> intro h1 h2 <;> simp [compose_output, h1, h2]

/-- Witness for C7: file `notes.txt`, 0-based index 4, line `hello`, both
flags set, renders as `notes.txt: 5: hello`. -/
theorem compose_output_cases_witness :
    compose_output { configDefault with print_filenames := true, line_numbers := true }
      "notes.txt".data 4 "hello".data = "notes.txt: 5: hello".data := by
  have h := (compose_output_cases
    { configDefault with print_filenames := true, line_numbers := true }
    "notes.txt".data 4 "hello".data).1 rfl rfl
  rw [h]
  decide

theorem lexLe_cons (x y : Char) (xs ys : List Char)
    (h : lexLe (x :: xs) (y :: ys) = true) :
    x.toNat < y.toNat ∨ (x.toNat = y.toNat ∧ lexLe xs ys = true) := by
  by_cases h1 : x.toNat < y.toNat
  · exact Or.inl h1
  · by_cases h2 : y.toNat < x.toNat
    · simp [lexLe, h1, h2] at h
    · refine Or.inr ⟨by omega, ?_⟩
      simpa [lexLe, h1, h2] using h

theorem lexLe_total : ∀ (a b : List Char), (lexLe a b || lexLe b a) = true := by
  intro a
  induction a with
  | nil => intro b; simp [lexLe]
  | cons x xs ih =>
    intro b
    cases b with
    | nil => simp [lexLe]
    | cons y ys =>
      by_cases h1 : x.toNat < y.toNat
      · simp [lexLe, h1]
      · by_cases h2 : y.toNat < x.toNat
        · simp [lexLe, h1, h2]
        · simp [lexLe, h1, h2, ih ys]

theorem lexLe_trans : ∀ (a b c : List Char),
    lexLe a b = true → lexLe b c = true → lexLe a c = true := by
  intro a
  induction a with
  | nil => intro b c h1 h2; simp [lexLe]
  | cons x xs ih =>
    intro b c h1 h2
    cases b with
    | nil => simp [lexLe] at h1
    | cons y ys =>
      cases c with
      | nil => simp [lexLe] at h2
      | cons z zs =>
        have key : x.toNat < z.toNat ∨ (x.toNat = z.toNat ∧ lexLe xs zs = true) := by
          rcases lexLe_cons x y xs ys h1 with hl1 | ⟨he1, hr1⟩ <;>
            rcases lexLe_cons y z ys zs h2 with hl2 | ⟨he2, hr2⟩
          · exact Or.inl (by omega)
          · exact Or.inl (by omega)
          · exact Or.inl (by omega)
          · exact Or.inr ⟨by omega, ih ys zs hr1 hr2⟩
        rcases key with hlt | ⟨heq, hrec⟩
        · simp [lexLe, hlt]
        · simp only [lexLe]
          rw [if_neg (by omega), if_neg (by omega)]
          exact hrec

theorem pathLe_trans (a b c : FileData) (h1 : pathLe a b = true)
    (h2 : pathLe b c = true) : pathLe a c = true :=
  lexLe_trans a.path b.path c.path h1 h2

theorem pathLe_total (a b : FileData) : (pathLe a b || pathLe b a) = true :=
  lexLe_total a.path b.path

/-- Claim C8: the run processes the collected files strictly sequentially in
ascending lexicographic order of their path strings, each file's lines in
file order, so the output is the in-order concatenation over that sorted
file list. -/
theorem run_files_sorted (cfg : Config) (files : List FileData) :
    ∃ ordered : List FileData,
      ordered.Perm files ∧
      List.Pairwise (fun a b => lexLe a.path b.path = true) ordered ∧
      run_files cfg files =
        (ordered.map (fun f => searchLines cfg f.path 0 f.lines)).flatten := by
  refine ⟨files.mergeSort pathLe, List.mergeSort_perm files pathLe, ?_, rfl⟩
  have h : (files.mergeSort pathLe).Pairwise (fun a b => pathLe a b = true) :=
    List.sorted_mergeSort pathLe_trans pathLe_total files
  exact h

/-- Claim C9: if every file before `bad` in the run's file list succeeds and
opening or reading `bad` fails with error `e`, the whole run aborts with `e`,
whatever files follow (they are never searched). -/
theorem runE_abort (cfg : Config) (pre : List FileRes) (bad : FileRes)
    (post : List FileRes) (e : List Char)
    (hok : ∀ g ∈ pre, ∃ o, search_one_file cfg g = Except.ok o)
    (hbad : search_one_file cfg bad = Except.error e) :
    runE cfg (pre ++ bad :: post) = Except.error e := by
  induction pre with
  | nil => simp [runE, hbad]
  | cons f fs ih =>
    obtain ⟨o, ho⟩ := hok f (List.mem_cons_self f fs)
    have ih2 := ih (fun g hg => hok g (List.mem_cons_of_mem f hg))
    simp [runE, ho, ih2, Except.map]

/-- Witness for C9: a file whose open fails aborts the run with its error even
though a readable file follows it. -/
theorem runE_abort_witness :
    runE configDefault
      [{ path := "b.txt".data, openRes := Except.error "boom".data },
       { path := "c.txt".data, openRes := Except.ok [] }] =
      Except.error "boom".data := by
  have h := runE_abort configDefault []
    { path := "b.txt".data, openRes := Except.error "boom".data }
    [{ path := "c.txt".data, openRes := Except.ok [] }] "boom".data
    (by simp) rfl
  simpa using h

theorem parseLoop_isSome :
    ∀ (l : List (List Char)) (cfg : Config) (hp : Bool),
      (parseLoop cfg hp l).isSome = true := by
  intro l
  induction l with
  | nil => intro cfg hp; rfl
  | cons a t ih =>
    intro cfg hp
    rw [parseLoop]
    split_ifs <;> first | rfl | exact ih _ _

/-- Claim C10: `parse_args` returns `some` configuration on every argument
list — every token is consumed, ignored, or taken as pattern/path — so the
`unwrap`-style `.expect` in `main` can never fail. -/
theorem parse_args_total (args : List (List Char)) :
    (parse_args args).isSome = true :=
  parseLoop_isSome (args.drop 1) configDefault false

end Grep
